import Mathlib

/-!
Shallow embedding of `src/vector_store.hpp` (classes `Vector`, `Keyspace`,
`VectorStore`) for checking the repository's specification.

Modelling decisions:
* `double` arithmetic is modelled by exact real arithmetic (`ℝ`).
* The C++ `Vector` keeps `data : std::vector<double>` together with a
  `dimension` field; the constructor resizes `data` to `dimension` and no
  operation ever changes the length, so `data.size() == dimension` always
  holds.  We therefore model a `Vector` by its component list and read its
  dimension off as the list length.
* Thrown exceptions are modelled by `Except Err` (for operations whose only
  observable effect on failure is the exception) or by an `Option Err`
  paired with the post-call state (for mutators, where the state left
  behind by a failed call matters).
* Mutex lock/unlock calls and spdlog output have no effect on the data
  model and are not modelled.
-/

namespace VS

/-- The error kinds of the specification, standing for the exceptions
thrown in `vector_store.hpp`. -/
inductive Err where
  | DimensionMismatch
  | OutOfRange
  | EmptyCollection
  | NotFound
deriving DecidableEq, Repr

/-- A `Vector` is modelled by its list of components; its dimension is the
list length (the C++ class keeps `data.size() == dimension` invariantly). -/
abbrev Vec := List ℝ

/-- The loop `for i: dotProduct += data[i] * other.data[i]` shared by
`cosineSimilarity` (it also computes `magnitude1`/`magnitude2` as
`dotProduct a a` / `dotProduct b b`). -/
def dotProduct (a b : Vec) : ℝ := (List.zipWith (fun x y => x * y) a b).sum

/-- The body of `Vector::euclideanDistance` after the dimension check:
`sqrt` of the sum of squared componentwise differences. -/
noncomputable def eDist (a b : Vec) : ℝ :=
  Real.sqrt ((List.zipWith (fun x y => (x - y) * (x - y)) a b).sum)

/-- `Vector::euclideanDistance`: throws `DimensionMismatch` on unequal
dimension, otherwise returns `eDist`. -/
noncomputable def euclideanDistance (a b : Vec) : Except Err ℝ :=
  if a.length ≠ b.length then .error .DimensionMismatch
  else .ok (eDist a b)

/-- `Vector::cosineSimilarity`: dimension check, then
`dot / sqrt(mag1 * mag2)` with a `0.0` fallback when the combined
magnitude is exactly zero. -/
noncomputable def cosineSimilarity (a b : Vec) : Except Err ℝ :=
  if a.length ≠ b.length then .error .DimensionMismatch
  else
    let dp := dotProduct a b
    let magnitude1 := dotProduct a a
    let magnitude2 := dotProduct b b
    let magnitude := Real.sqrt (magnitude1 * magnitude2)
    if magnitude = 0 then .ok 0
    else .ok (dp / magnitude)

/-- The `Keyspace` state: its vector sequence, fixed dimension and name
(the mutex is not part of the data model). -/
structure Keyspace where
  vectors : List Vec
  dimension : Nat
  keyspace_name : String

/-- `Keyspace::getName`. -/
def Keyspace.getName (ks : Keyspace) : String := ks.keyspace_name

/-- `Keyspace::addVector`: dimension check, then `push_back`.  Returns the
post-call state together with the thrown error, if any (on failure nothing
was pushed). -/
def addVector (ks : Keyspace) (vec : Vec) : Keyspace × Option Err :=
  if vec.length ≠ ks.dimension then (ks, some .DimensionMismatch)
  else ({ ks with vectors := ks.vectors ++ [vec] }, none)

/-- `Keyspace::batchAddVectors`: iterates over the batch, checking each
element's dimension immediately before pushing it; a mismatch throws
mid-loop, leaving the already-pushed elements in place. -/
def batchAddVectors (ks : Keyspace) : List Vec → Keyspace × Option Err
  | [] => (ks, none)
  | vec :: rest =>
    if vec.length ≠ ks.dimension then (ks, some .DimensionMismatch)
    else batchAddVectors { ks with vectors := ks.vectors ++ [vec] } rest

/-- `Keyspace::removeVector`: bounds check, then `erase` at the index
(order-preserving left shift). -/
def removeVector (ks : Keyspace) (index : Nat) : Keyspace × Option Err :=
  if ks.vectors.length ≤ index then (ks, some .OutOfRange)
  else ({ ks with vectors := ks.vectors.eraseIdx index }, none)

/-- The scan loop of `Keyspace::findNearestNeighbor`: `i` is the index of
the head of `vs` in the full sequence, `best`/`minD` are `nearest_idx` /
`min_distance`; each step recomputes the distance (which can throw
`DimensionMismatch`) and updates on strict `<`. -/
noncomputable def fnnLoop (query : Vec) : List Vec → Nat → Nat → ℝ → Except Err Nat
  | [], _, best, _ => .ok best
  | v :: rest, i, best, minD =>
    match euclideanDistance query v with
    | .error e => .error e
    | .ok d =>
      if d < minD then fnnLoop query rest (i + 1) i d
      else fnnLoop query rest (i + 1) best minD

/-- `Keyspace::findNearestNeighbor`: throws `EmptyCollection` on an empty
keyspace, otherwise seeds the scan with the distance to vector 0 and runs
the strict-less-than scan from index 1. -/
noncomputable def findNearestNeighbor (ks : Keyspace) (query : Vec) : Except Err Nat :=
  match ks.vectors with
  | [] => .error .EmptyCollection
  | v0 :: rest =>
    match euclideanDistance query v0 with
    | .error e => .error e
    | .ok d0 => fnnLoop query rest 1 0 d0

/-- The collection loop of `Keyspace::findNeighborsAboveThreshold`: for
each index, computes the distance (which can throw), converts it to
`1 / (1 + distance)` and keeps the pair when `similarity >= threshold`. -/
noncomputable def fnatLoop (query : Vec) (threshold : ℝ) :
    List Vec → Nat → Except Err (List (Nat × ℝ))
  | [], _ => .ok []
  | v :: rest, i =>
    match euclideanDistance query v with
    | .error e => .error e
    | .ok d =>
      match fnatLoop query threshold rest (i + 1) with
      | .error e => .error e
      | .ok tail =>
        if threshold ≤ 1 / (1 + d) then .ok ((i, 1 / (1 + d)) :: tail)
        else .ok tail

/-- The comparator handed to `std::sort`: `a.second > b.second`, i.e. the
result is ordered by non-increasing similarity. -/
def simDesc (a b : Nat × ℝ) : Prop := b.2 ≤ a.2

noncomputable instance : DecidableRel simDesc :=
  fun a b => inferInstanceAs (Decidable (b.2 ≤ a.2))

instance : IsTotal (Nat × ℝ) simDesc := ⟨fun a b => le_total b.2 a.2⟩

instance : IsTrans (Nat × ℝ) simDesc := ⟨fun _ _ _ h1 h2 => le_trans h2 h1⟩

/-- `Keyspace::findNeighborsAboveThreshold`: `EmptyCollection` on an empty
keyspace, otherwise collects the qualifying `(index, similarity)` pairs in
scan order and sorts them by similarity descending.  (`std::sort`
guarantees a permutation sorted under the comparator with unspecified tie
order; a stable sort is one of its allowed outcomes.) -/
noncomputable def findNeighborsAboveThreshold (ks : Keyspace) (query : Vec)
    (threshold : ℝ) : Except Err (List (Nat × ℝ)) :=
  match ks.vectors with
  | [] => .error .EmptyCollection
  | _ :: _ =>
    match fnatLoop query threshold ks.vectors 0 with
    | .error e => .error e
    | .ok results => .ok (List.insertionSort simDesc results)

/-- The `VectorStore` state: the keyspace registry (a `shared_ptr`
sequence, modelled by value) and the store name. -/
structure VectorStore where
  keyspaces : List Keyspace
  vector_store_name : String

/-- `VectorStore::addKeyspace`: `push_back` onto the registry. -/
def addKeyspace (s : VectorStore) (ks : Keyspace) : VectorStore :=
  { s with keyspaces := s.keyspaces ++ [ks] }

/-- The erase-remove idiom of `VectorStore::removeKeyspace`:
`std::remove_if` compacts the elements not matching the predicate,
preserving their order, and `erase` drops the rest. -/
def removeIf (p : Keyspace → Bool) : List Keyspace → List Keyspace
  | [] => []
  | k :: rest => if p k then removeIf p rest else k :: removeIf p rest

/-- `VectorStore::removeKeyspace`: erases every registered keyspace whose
name equals `name`. -/
def removeKeyspace (s : VectorStore) (name : String) : VectorStore :=
  { s with keyspaces := removeIf (fun k => k.getName == name) s.keyspaces }

/-- The linear scan of `VectorStore::getKeyspace`: first match by name,
`NotFound` if none. -/
def getKeyspaceScan : List Keyspace → String → Except Err Keyspace
  | [], _ => .error .NotFound
  | k :: rest, name => if k.getName == name then .ok k else getKeyspaceScan rest name

/-- `VectorStore::getKeyspace`. -/
def getKeyspace (s : VectorStore) (name : String) : Except Err Keyspace :=
  getKeyspaceScan s.keyspaces name

/-- The `Keyspace(dim, name)` constructor: empty vector sequence. -/
def mkKeyspace (dim : Nat) (name : String) : Keyspace :=
  { vectors := [], dimension := dim, keyspace_name := name }

/-- Modelled from the spec: `VectorStore::createKeyspace` is called by
`src/test_benchmark.cpp` but its definition is absent from the sources;
per the spec it "constructs a new Keyspace with given dimension/name,
registers it, and returns the shared reference". -/
def createKeyspace (s : VectorStore) (dim : Nat) (name : String) :
    VectorStore × Keyspace :=
  let ks := mkKeyspace dim name
  (addKeyspace s ks, ks)

/-- The keyspace states reachable from the `Keyspace(dim, name)`
constructor by `addVector`, `batchAddVectors` and `removeVector`,
including the states left behind by failed calls. -/
inductive Reachable : Keyspace → Prop
  | init (dim : Nat) (name : String) : Reachable (mkKeyspace dim name)
  | add {ks : Keyspace} (vec : Vec) : Reachable ks → Reachable (addVector ks vec).1
  | batch {ks : Keyspace} (vecs : List Vec) :
      Reachable ks → Reachable (batchAddVectors ks vecs).1
  | remove {ks : Keyspace} (index : Nat) :
      Reachable ks → Reachable (removeVector ks index).1

/-! ### Vector-level lemmas -/

lemma dotProduct_nil (b : Vec) : dotProduct [] b = 0 := rfl

lemma dotProduct_cons (x y : ℝ) (xs ys : Vec) :
    dotProduct (x :: xs) (y :: ys) = x * y + dotProduct xs ys := by
  simp [dotProduct]

lemma dotProduct_self_nonneg (a : Vec) : 0 ≤ dotProduct a a := by
  induction a with
  | nil => simp [dotProduct]
  | cons x xs ih =>
    rw [dotProduct_cons]
    exact add_nonneg (mul_self_nonneg x) ih

lemma dotProduct_eq_sum (a : Vec) : ∀ b : Vec, a.length = b.length →
    dotProduct a b = ∑ i ∈ Finset.range a.length, a.getD i 0 * b.getD i 0 := by
  induction a with
  | nil => intro b _; simp [dotProduct]
  | cons x xs ih =>
    intro b hb
    cases b with
    | nil => simp at hb
    | cons y ys =>
      simp only [List.length_cons] at hb ⊢
      rw [dotProduct_cons, Finset.sum_range_succ']
      simp only [List.getD_cons_succ, List.getD_cons_zero]
      rw [ih ys (by omega)]
      ring

lemma dotProduct_sq_le (a b : Vec) (h : a.length = b.length) :
    dotProduct a b ^ 2 ≤ dotProduct a a * dotProduct b b := by
  rw [dotProduct_eq_sum a b h, dotProduct_eq_sum a a rfl, dotProduct_eq_sum b b rfl, ← h]
  have key := Finset.sum_mul_sq_le_sq_mul_sq (Finset.range a.length)
    (fun i => a.getD i 0) (fun i => b.getD i 0)
  calc (∑ i ∈ Finset.range a.length, a.getD i 0 * b.getD i 0) ^ 2
      ≤ (∑ i ∈ Finset.range a.length, a.getD i 0 ^ 2) *
        ∑ i ∈ Finset.range a.length, b.getD i 0 ^ 2 := key
    _ = (∑ i ∈ Finset.range a.length, a.getD i 0 * a.getD i 0) *
        ∑ i ∈ Finset.range a.length, b.getD i 0 * b.getD i 0 := by
        simp only [pow_two]

/-- Claim C6: for every vector of nonzero magnitude, `cosineSimilarity`
of the vector with itself is exactly `1`; and whenever either operand of
an equal-dimension pair has magnitude exactly zero, `cosineSimilarity`
returns `0` as an ordinary result, not an error. -/
theorem cosineSimilarity_self_and_zero (a b : Vec) :
    (a.length = b.length →
      Real.sqrt (dotProduct a a) = 0 ∨ Real.sqrt (dotProduct b b) = 0 →
      cosineSimilarity a b = .ok 0) ∧
    (Real.sqrt (dotProduct a a) ≠ 0 → cosineSimilarity a a = .ok 1) := by
  constructor
  · intro hlen hzero
    have hz : dotProduct a a = 0 ∨ dotProduct b b = 0 := by
      rcases hzero with h | h
      · exact Or.inl ((Real.sqrt_eq_zero (dotProduct_self_nonneg a)).1 h)
      · exact Or.inr ((Real.sqrt_eq_zero (dotProduct_self_nonneg b)).1 h)
    have hprod : dotProduct a a * dotProduct b b = 0 := by
      rcases hz with h | h <;> simp [h]
    have hsqrt : Real.sqrt (dotProduct a a * dotProduct b b) = 0 := by
      rw [hprod, Real.sqrt_zero]
    simp only [cosineSimilarity]
    rw [if_neg (by simp [hlen]), if_pos hsqrt]
  · intro hnz
    have hS : dotProduct a a ≠ 0 := fun h => hnz (by rw [h, Real.sqrt_zero])
    have hmag : Real.sqrt (dotProduct a a * dotProduct a a) = dotProduct a a :=
      Real.sqrt_mul_self (dotProduct_self_nonneg a)
    simp only [cosineSimilarity]
    rw [if_neg (by simp), if_neg (by rw [hmag]; exact hS), hmag, div_self hS]

/-- Witness for C6 at the one-dimensional vectors `[1]` and `[0]`. -/
theorem cosineSimilarity_self_and_zero_witness :
    (([(0 : ℝ)] : Vec).length = ([(0 : ℝ)] : Vec).length ∧
      Real.sqrt (dotProduct [(0 : ℝ)] [(0 : ℝ)]) = 0 ∧
      cosineSimilarity [(0 : ℝ)] [(0 : ℝ)] = .ok 0) ∧
    (Real.sqrt (dotProduct [(1 : ℝ)] [(1 : ℝ)]) ≠ 0 ∧
      cosineSimilarity [(1 : ℝ)] [(1 : ℝ)] = .ok 1) := by
  have h0 : dotProduct [(0 : ℝ)] [(0 : ℝ)] = 0 := by norm_num [dotProduct]
  have h1 : dotProduct [(1 : ℝ)] [(1 : ℝ)] = 1 := by norm_num [dotProduct]
  have hz : Real.sqrt (dotProduct [(0 : ℝ)] [(0 : ℝ)]) = 0 := by
    rw [h0, Real.sqrt_zero]
  have hnz : Real.sqrt (dotProduct [(1 : ℝ)] [(1 : ℝ)]) ≠ 0 := by
    rw [h1, Real.sqrt_one]; norm_num
  exact ⟨⟨rfl, hz, (cosineSimilarity_self_and_zero [(0 : ℝ)] [(0 : ℝ)]).1 rfl (Or.inl hz)⟩,
    ⟨hnz, (cosineSimilarity_self_and_zero [(1 : ℝ)] [(1 : ℝ)]).2 hnz⟩⟩

/-- Claim C10: on every pair of equal-dimension vectors,
`cosineSimilarity` succeeds and its value lies in `[-1, 1]` (by the
Cauchy-Schwarz bound in the division branch; the zero-magnitude fallback
`0` also lies in the interval). -/
theorem cosineSimilarity_mem_Icc (a b : Vec) (h : a.length = b.length) :
    ∃ r : ℝ, cosineSimilarity a b = .ok r ∧ -1 ≤ r ∧ r ≤ 1 := by
  simp only [cosineSimilarity]
  rw [if_neg (by simp [h])]
  by_cases hm : Real.sqrt (dotProduct a a * dotProduct b b) = 0
  · exact ⟨0, by rw [if_pos hm], by norm_num, by norm_num⟩
  · refine ⟨dotProduct a b / Real.sqrt (dotProduct a a * dotProduct b b),
      by rw [if_neg hm], ?_, ?_⟩ <;>
    · have hpos : 0 < Real.sqrt (dotProduct a a * dotProduct b b) :=
        lt_of_le_of_ne (Real.sqrt_nonneg _) (Ne.symm hm)
      have habs : |dotProduct a b| ≤ Real.sqrt (dotProduct a a * dotProduct b b) := by
        have hsq := Real.sqrt_le_sqrt (dotProduct_sq_le a b h)
        rwa [Real.sqrt_sq_eq_abs] at hsq
      have hq : |dotProduct a b / Real.sqrt (dotProduct a a * dotProduct b b)| ≤ 1 := by
        rw [abs_div, abs_of_nonneg (Real.sqrt_nonneg _)]
        exact (div_le_one hpos).2 habs
      first
        | exact (abs_le.1 hq).1
        | exact (abs_le.1 hq).2

/-- Witness for C10 at the vectors `[1, 0]` and `[0, 1]`. -/
theorem cosineSimilarity_mem_Icc_witness :
    ([(1 : ℝ), 0] : Vec).length = ([(0 : ℝ), 1] : Vec).length ∧
    ∃ r : ℝ, cosineSimilarity [(1 : ℝ), 0] [(0 : ℝ), 1] = .ok r ∧ -1 ≤ r ∧ r ≤ 1 :=
  ⟨rfl, cosineSimilarity_mem_Icc [(1 : ℝ), 0] [(0 : ℝ), 1] rfl⟩

/-! ### Store-level lemmas -/

lemma removeIf_eq_filter (p : Keyspace → Bool) (l : List Keyspace) :
    removeIf p l = l.filter (fun k => !p k) := by
  induction l with
  | nil => rfl
  | cons k rest ih =>
    simp only [removeIf, List.filter_cons]
    by_cases h : p k
    · simp [h, ih]
    · simp [h, ih]

lemma getKeyspaceScan_removeIf (name other : String) (h : other ≠ name) :
    ∀ l : List Keyspace,
      getKeyspaceScan (removeIf (fun k => k.getName == name) l) other =
      getKeyspaceScan l other := by
  intro l
  induction l with
  | nil => rfl
  | cons k rest ih =>
    simp only [removeIf]
    by_cases hk : (k.getName == name) = true
    · have hne : (k.getName == other) = false := by
        rw [beq_eq_false_iff_ne]
        rw [beq_iff_eq] at hk
        rw [hk]
        exact fun hno => h hno.symm
      rw [if_pos hk, ih]
      simp only [getKeyspaceScan, hne, Bool.false_eq_true, if_false]
    · rw [if_neg hk]
      simp only [getKeyspaceScan]
      by_cases ho : (k.getName == other) = true
      · rw [if_pos ho, if_pos ho]
      · rw [if_neg ho, if_neg ho, ih]

/-- Claim C7 (spec-modelled, `VectorStore::createKeyspace` is absent from
the sources): `createKeyspace` registers a fresh keyspace of the given
dimension and name and returns it, observably the same as constructing a
`Keyspace` and passing it to `addKeyspace`. -/
theorem createKeyspace_equiv (s : VectorStore) (dim : Nat) (name : String) :
    createKeyspace s dim name = (addKeyspace s (mkKeyspace dim name), mkKeyspace dim name) ∧
    (createKeyspace s dim name).2.dimension = dim ∧
    (createKeyspace s dim name).2.getName = name ∧
    (createKeyspace s dim name).1.keyspaces = s.keyspaces ++ [(createKeyspace s dim name).2] :=
  ⟨rfl, rfl, rfl, rfl⟩

/-- Claim C8: `removeKeyspace` keeps exactly the keyspaces whose name
differs from the argument (so all matches are removed), and when nothing
matches, the store is left unchanged. -/
theorem removeKeyspace_removes_all (s : VectorStore) (name : String) :
    (removeKeyspace s name).keyspaces =
      s.keyspaces.filter (fun k => !(k.getName == name)) ∧
    ((∀ k ∈ s.keyspaces, k.getName ≠ name) → removeKeyspace s name = s) := by
  constructor
  · exact removeIf_eq_filter _ _
  · intro hall
    have hfil : s.keyspaces.filter (fun k => !(k.getName == name)) = s.keyspaces :=
      List.filter_eq_self.mpr (fun k hk => by
        simp only [Bool.not_eq_eq_eq_not, Bool.not_true, beq_eq_false_iff_ne]
        exact hall k hk)
    cases s with
    | mk ks nm =>
      simp only [removeKeyspace] at *
      rw [removeIf_eq_filter, hfil]

/-- Witness for C8 at a two-keyspace store and an unmatched name. -/
theorem removeKeyspace_removes_all_witness :
    (∀ k ∈ (VectorStore.mk [mkKeyspace 1 "a", mkKeyspace 2 "b"] "st").keyspaces,
      k.getName ≠ "c") ∧
    removeKeyspace (VectorStore.mk [mkKeyspace 1 "a", mkKeyspace 2 "b"] "st") "c" =
      VectorStore.mk [mkKeyspace 1 "a", mkKeyspace 2 "b"] "st" := by
  have hall : ∀ k ∈ (VectorStore.mk [mkKeyspace 1 "a", mkKeyspace 2 "b"] "st").keyspaces,
      k.getName ≠ "c" := by
    intro k hk
    simp only [List.mem_cons, List.not_mem_nil, or_false] at hk
    rcases hk with rfl | rfl <;> simp [mkKeyspace, Keyspace.getName]
  exact ⟨hall,
    (removeKeyspace_removes_all (VectorStore.mk [mkKeyspace 1 "a", mkKeyspace 2 "b"] "st")
      "c").2 hall⟩

/-- Claim C9: `removeKeyspace` leaves the surviving keyspaces as a
subsequence of the original registry (their relative order unchanged),
and lookups for any other name are unaffected. -/
theorem removeKeyspace_frame (s : VectorStore) (name other : String) (h : other ≠ name) :
    List.Sublist (removeKeyspace s name).keyspaces s.keyspaces ∧
    getKeyspace (removeKeyspace s name) other = getKeyspace s other := by
  constructor
  · rw [(removeKeyspace_removes_all s name).1]
    exact List.filter_sublist _
  · simp only [getKeyspace, removeKeyspace]
    exact getKeyspaceScan_removeIf name other h s.keyspaces

/-- Witness for C9 at a three-keyspace store with a duplicated name. -/
theorem removeKeyspace_frame_witness :
    "b" ≠ "a" ∧
    (List.Sublist
      (removeKeyspace (VectorStore.mk [mkKeyspace 1 "a", mkKeyspace 2 "b", mkKeyspace 3 "a"]
        "st") "a").keyspaces
      (VectorStore.mk [mkKeyspace 1 "a", mkKeyspace 2 "b", mkKeyspace 3 "a"] "st").keyspaces ∧
    getKeyspace (removeKeyspace
        (VectorStore.mk [mkKeyspace 1 "a", mkKeyspace 2 "b", mkKeyspace 3 "a"] "st") "a") "b" =
      getKeyspace (VectorStore.mk [mkKeyspace 1 "a", mkKeyspace 2 "b", mkKeyspace 3 "a"] "st")
        "b") :=
  ⟨by decide,
    removeKeyspace_frame (VectorStore.mk [mkKeyspace 1 "a", mkKeyspace 2 "b", mkKeyspace 3 "a"]
      "st") "a" "b" (by decide)⟩

/-! ### Keyspace mutation lemmas -/

lemma batchAddVectors_ok (vecs : List Vec) : ∀ ks : Keyspace,
    (∀ v ∈ vecs, v.length = ks.dimension) →
    batchAddVectors ks vecs = ({ ks with vectors := ks.vectors ++ vecs }, none) := by
  induction vecs with
  | nil => intro ks _; simp [batchAddVectors]
  | cons v rest ih =>
    intro ks hall
    have hv : v.length = ks.dimension := hall v (List.mem_cons_self v rest)
    simp only [batchAddVectors, hv, ne_eq, not_true_eq_false, if_false]
    rw [ih { ks with vectors := ks.vectors ++ [v] }
      (fun w hw => hall w (List.mem_cons_of_mem v hw))]
    simp

lemma batchAddVectors_mismatch (vecs : List Vec) : ∀ ks : Keyspace,
    (∃ v ∈ vecs, v.length ≠ ks.dimension) →
    batchAddVectors ks vecs =
      ({ ks with vectors :=
          ks.vectors ++ vecs.takeWhile (fun v => v.length == ks.dimension) },
        some .DimensionMismatch) := by
  induction vecs with
  | nil => intro ks h; simp at h
  | cons v rest ih =>
    intro ks h
    by_cases hv : v.length = ks.dimension
    · have hrest : ∃ w ∈ rest, w.length ≠ ks.dimension := by
        rcases h with ⟨w, hw, hwne⟩
        rcases List.mem_cons.1 hw with rfl | hw'
        · exact absurd hv hwne
        · exact ⟨w, hw', hwne⟩
      simp only [batchAddVectors, hv, ne_eq, not_true_eq_false, if_false]
      rw [ih { ks with vectors := ks.vectors ++ [v] } hrest]
      simp only [List.takeWhile_cons, hv, beq_self_eq_true, if_pos]
      simp [List.append_assoc]
    · simp only [batchAddVectors, ne_eq, hv, not_false_eq_true, if_true]
      have : (v.length == ks.dimension) = false := beq_eq_false_iff_ne.2 hv
      simp [List.takeWhile_cons, this]

/-- Counterexample to claim C3: on a dimension-1 keyspace, a batch whose
first element fits and whose second does not fails with
`DimensionMismatch` but leaves the first element inserted — the vector
sequence is not what it was before the call. -/
theorem batchAddVectors_mutates_on_failure :
    (batchAddVectors (mkKeyspace 1 "k") [[(0 : ℝ)], [(0 : ℝ), 0]]).2 =
      some Err.DimensionMismatch ∧
    (batchAddVectors (mkKeyspace 1 "k") [[(0 : ℝ)], [(0 : ℝ), 0]]).1.vectors ≠
      (mkKeyspace 1 "k").vectors := by
  constructor
  · rfl
  · show [[(0 : ℝ)]] ≠ []
    simp

/-- Claim C3 as amended: a batch containing an element of mismatched
dimension makes `batchAddVectors` fail with `DimensionMismatch`, but the
elements are validated one by one during insertion, so on failure the
vector sequence is the original followed by the longest run of
well-dimensioned elements preceding the first mismatch (partial
mutation). -/
theorem batchAddVectors_mismatch_state (ks : Keyspace) (vecs : List Vec)
    (h : ∃ v ∈ vecs, v.length ≠ ks.dimension) :
    batchAddVectors ks vecs =
      ({ ks with vectors :=
          ks.vectors ++ vecs.takeWhile (fun v => v.length == ks.dimension) },
        some .DimensionMismatch) :=
  batchAddVectors_mismatch vecs ks h

/-- Witness for the amended C3 at the counterexample input. -/
theorem batchAddVectors_mismatch_state_witness :
    (∃ v ∈ [[(0 : ℝ)], [(0 : ℝ), 0]], v.length ≠ (mkKeyspace 1 "k").dimension) ∧
    batchAddVectors (mkKeyspace 1 "k") [[(0 : ℝ)], [(0 : ℝ), 0]] =
      ({ mkKeyspace 1 "k" with vectors :=
          (mkKeyspace 1 "k").vectors ++
            ([[(0 : ℝ)], [(0 : ℝ), 0]] :
              List Vec).takeWhile (fun v => v.length == (mkKeyspace 1 "k").dimension) },
        some .DimensionMismatch) := by
  have hex : ∃ v ∈ [[(0 : ℝ)], [(0 : ℝ), 0]], v.length ≠ (mkKeyspace 1 "k").dimension :=
    ⟨[(0 : ℝ), 0], by simp, by simp [mkKeyspace]⟩
  exact ⟨hex, batchAddVectors_mismatch_state (mkKeyspace 1 "k") _ hex⟩

/-! ### The dimension invariant (claim C5) -/

lemma addVector_inv {ks : Keyspace} (vec : Vec)
    (h : ∀ v ∈ ks.vectors, v.length = ks.dimension) :
    ∀ v ∈ (addVector ks vec).1.vectors, v.length = (addVector ks vec).1.dimension := by
  unfold addVector
  by_cases hv : vec.length = ks.dimension
  · simp only [hv, ne_eq, not_true_eq_false, if_false]
    intro v hvmem
    rcases List.mem_append.1 hvmem with hmem | hmem
    · exact h v hmem
    · rw [List.mem_singleton.1 hmem]; exact hv
  · simp only [ne_eq, hv, not_false_eq_true, if_true]
    exact h

lemma batchAddVectors_inv (vecs : List Vec) : ∀ ks : Keyspace,
    (∀ v ∈ ks.vectors, v.length = ks.dimension) →
    ∀ v ∈ (batchAddVectors ks vecs).1.vectors,
      v.length = (batchAddVectors ks vecs).1.dimension := by
  induction vecs with
  | nil => intro ks h; exact h
  | cons vec rest ih =>
    intro ks h
    unfold batchAddVectors
    by_cases hv : vec.length = ks.dimension
    · simp only [hv, ne_eq, not_true_eq_false, if_false]
      refine ih _ ?_
      intro v hvmem
      rcases List.mem_append.1 hvmem with hmem | hmem
      · exact h v hmem
      · rw [List.mem_singleton.1 hmem]; exact hv
    · simp only [ne_eq, hv, not_false_eq_true, if_true]
      exact h

lemma removeVector_inv {ks : Keyspace} (index : Nat)
    (h : ∀ v ∈ ks.vectors, v.length = ks.dimension) :
    ∀ v ∈ (removeVector ks index).1.vectors,
      v.length = (removeVector ks index).1.dimension := by
  unfold removeVector
  by_cases hi : ks.vectors.length ≤ index
  · simp only [hi, if_true]; exact h
  · simp only [hi, if_false]
    intro v hvmem
    exact h v ((ks.vectors.eraseIdx_sublist index).subset hvmem)

/-- Claim C5: in every keyspace state reachable from construction by
`addVector`, `batchAddVectors` and `removeVector` — the states left by
failed calls included — every stored vector has the keyspace's
dimension. -/
theorem reachable_dimension_invariant (ks : Keyspace) (h : Reachable ks) :
    ∀ v ∈ ks.vectors, v.length = ks.dimension := by
  induction h with
  | init dim name => simp [mkKeyspace]
  | add vec _ ih => exact addVector_inv vec ih
  | batch vecs _ ih => exact batchAddVectors_inv vecs _ ih
  | remove index _ ih => exact removeVector_inv index ih

/-- Witness for C5 at a keyspace that went through a successful
`addVector` after construction. -/
theorem reachable_dimension_invariant_witness :
    Reachable (addVector (mkKeyspace 1 "w") [(5 : ℝ)]).1 ∧
    ∀ v ∈ (addVector (mkKeyspace 1 "w") [(5 : ℝ)]).1.vectors,
      v.length = (addVector (mkKeyspace 1 "w") [(5 : ℝ)]).1.dimension :=
  ⟨Reachable.add [(5 : ℝ)] (Reachable.init 1 "w"),
    reachable_dimension_invariant _ (Reachable.add [(5 : ℝ)] (Reachable.init 1 "w"))⟩

/-! ### The nearest-neighbor scan (claim C1) -/

lemma eDist_nonneg (a b : Vec) : 0 ≤ eDist a b := Real.sqrt_nonneg _

lemma euclideanDistance_ok {a b : Vec} (h : a.length = b.length) :
    euclideanDistance a b = .ok (eDist a b) := by
  simp [euclideanDistance, h]

lemma euclideanDistance_error {a b : Vec} {e : Err}
    (h : euclideanDistance a b = .error e) : e = .DimensionMismatch := by
  unfold euclideanDistance at h
  by_cases hl : a.length ≠ b.length
  · rw [if_pos hl] at h
    exact (Except.error.inj h).symm
  · rw [if_neg hl] at h
    exact absurd h (by simp)

/-- The pure content of `fnnLoop` on the list of already-computed
distances. -/
noncomputable def selectMin : List ℝ → Nat → Nat → ℝ → Nat × ℝ
  | [], _, best, minD => (best, minD)
  | d :: rest, i, best, minD =>
    if d < minD then selectMin rest (i + 1) i d
    else selectMin rest (i + 1) best minD

lemma fnnLoop_eq_selectMin (query : Vec) : ∀ (vs : List Vec) (i best : Nat) (minD : ℝ),
    (∀ v ∈ vs, query.length = v.length) →
    fnnLoop query vs i best minD = .ok (selectMin (vs.map (eDist query)) i best minD).1 := by
  intro vs
  induction vs with
  | nil => intro i best minD _; rfl
  | cons v rest ih =>
    intro i best minD hall
    have hv : query.length = v.length := hall v (List.mem_cons_self v rest)
    have hrest : ∀ w ∈ rest, query.length = w.length :=
      fun w hw => hall w (List.mem_cons_of_mem v hw)
    simp only [fnnLoop, euclideanDistance_ok hv, List.map_cons, selectMin]
    by_cases hlt : eDist query v < minD
    · rw [if_pos hlt, if_pos hlt, ih _ _ _ hrest]
    · rw [if_neg hlt, if_neg hlt, ih _ _ _ hrest]

lemma selectMin_le : ∀ (ds : List ℝ) (i best : Nat) (minD : ℝ),
    (selectMin ds i best minD).2 ≤ minD ∧
    ∀ j < ds.length, (selectMin ds i best minD).2 ≤ ds.getD j 0 := by
  intro ds
  induction ds with
  | nil => intro i best minD; exact ⟨le_refl _, fun j hj => absurd hj (by simp)⟩
  | cons d rest ih =>
    intro i best minD
    simp only [selectMin]
    by_cases hlt : d < minD
    · rw [if_pos hlt]
      obtain ⟨h1, h2⟩ := ih (i + 1) i d
      refine ⟨le_of_lt (lt_of_le_of_lt h1 hlt), ?_⟩
      intro j hj
      cases j with
      | zero => simpa using h1
      | succ j' =>
        simp only [List.getD_cons_succ]
        exact h2 j' (by simpa using hj)
    · rw [if_neg hlt]
      obtain ⟨h1, h2⟩ := ih (i + 1) best minD
      refine ⟨h1, ?_⟩
      intro j hj
      cases j with
      | zero =>
        simp only [List.getD_cons_zero]
        exact le_trans h1 (le_of_not_lt hlt)
      | succ j' =>
        simp only [List.getD_cons_succ]
        exact h2 j' (by simpa using hj)

lemma selectMin_first : ∀ (ds : List ℝ) (i best : Nat) (minD : ℝ),
    ((selectMin ds i best minD).1 = best ∧ (selectMin ds i best minD).2 = minD) ∨
    (∃ k, k < ds.length ∧ (selectMin ds i best minD).1 = i + k ∧
      (selectMin ds i best minD).2 = ds.getD k 0 ∧
      (∀ j < k, (selectMin ds i best minD).2 < ds.getD j 0) ∧
      (selectMin ds i best minD).2 < minD) := by
  intro ds
  induction ds with
  | nil => intro i best minD; exact Or.inl ⟨rfl, rfl⟩
  | cons d rest ih =>
    intro i best minD
    simp only [selectMin]
    by_cases hlt : d < minD
    · rw [if_pos hlt]
      rcases ih (i + 1) i d with ⟨h1, h2⟩ | ⟨k, hk, h1, h2, h3, h4⟩
      · refine Or.inr ⟨0, by simp, by rw [h1, Nat.add_zero], by simpa using h2, ?_, ?_⟩
        · intro j hj; omega
        · rw [h2]; exact hlt
      · refine Or.inr ⟨k + 1, by simpa using hk, by rw [h1]; omega,
          by simpa using h2, ?_, lt_trans h4 hlt⟩
        intro j hj
        cases j with
        | zero => simpa using h4
        | succ j' =>
          simp only [List.getD_cons_succ]
          exact h3 j' (by omega)
    · rw [if_neg hlt]
      rcases ih (i + 1) best minD with ⟨h1, h2⟩ | ⟨k, hk, h1, h2, h3, h4⟩
      · exact Or.inl ⟨h1, h2⟩
      · refine Or.inr ⟨k + 1, by simpa using hk, by rw [h1]; omega,
          by simpa using h2, ?_, h4⟩
        intro j hj
        cases j with
        | zero =>
          simp only [List.getD_cons_zero]
          exact lt_of_lt_of_le h4 (le_of_not_lt hlt)
        | succ j' =>
          simp only [List.getD_cons_succ]
          exact h3 j' (by omega)

lemma getD_map_eDist (query : Vec) : ∀ (l : List Vec) (j : Nat), j < l.length →
    (l.map (eDist query)).getD j 0 = eDist query (l.getD j []) := by
  intro l
  induction l with
  | nil => intro j hj; simp at hj
  | cons v rest ih =>
    intro j hj
    cases j with
    | zero => simp
    | succ j' =>
      simp only [List.map_cons, List.getD_cons_succ]
      exact ih j' (by simpa using hj)

/-- Claim C1: on a non-empty keyspace satisfying its dimension invariant
and a query of the keyspace's dimension, `findNearestNeighbor` returns an
index of a vector at minimal Euclidean distance from the query, and among
the minimizers it is the lowest index (every strictly earlier index has
strictly larger distance). -/
theorem findNearestNeighbor_min (ks : Keyspace) (query : Vec)
    (hne : ks.vectors ≠ [])
    (hinv : ∀ v ∈ ks.vectors, v.length = ks.dimension)
    (hq : query.length = ks.dimension) :
    ∃ i, findNearestNeighbor ks query = .ok i ∧ i < ks.vectors.length ∧
      (∀ j < ks.vectors.length,
        eDist query (ks.vectors.getD i []) ≤ eDist query (ks.vectors.getD j [])) ∧
      ∀ j < i, eDist query (ks.vectors.getD i []) < eDist query (ks.vectors.getD j []) := by
  obtain ⟨v0, rest, hvs⟩ : ∃ v0 rest, ks.vectors = v0 :: rest := by
    cases h : ks.vectors with
    | nil => exact absurd h hne
    | cons a l => exact ⟨a, l, rfl⟩
  have hall : ∀ v ∈ ks.vectors, query.length = v.length :=
    fun v hv => by rw [hq, (hinv v hv).symm]
  have hv0 : query.length = v0.length := hall v0 (by rw [hvs]; exact List.mem_cons_self _ _)
  have hrest : ∀ w ∈ rest, query.length = w.length :=
    fun w hw => hall w (by rw [hvs]; exact List.mem_cons_of_mem _ hw)
  set ds := rest.map (eDist query) with hds
  have hfnn : findNearestNeighbor ks query = .ok (selectMin ds 1 0 (eDist query v0)).1 := by
    simp only [findNearestNeighbor, hvs, euclideanDistance_ok hv0,
      fnnLoop_eq_selectMin query rest 1 0 (eDist query v0) hrest]
  have hdslen : ds.length = rest.length := by rw [hds, List.length_map]
  rw [hvs]
  obtain ⟨hle_min, hle_all⟩ := selectMin_le ds 1 0 (eDist query v0)
  rcases selectMin_first ds 1 0 (eDist query v0) with ⟨h1, h2⟩ | ⟨k, hk, h1, h2, h3, h4⟩
  · -- vector 0 keeps the minimum
    refine ⟨0, by rw [hfnn, h1], by simp, ?_, fun j hj => absurd hj (by omega)⟩
    intro j hj
    cases j with
    | zero => exact le_refl _
    | succ j' =>
      simp only [List.getD_cons_zero, List.getD_cons_succ]
      have hj' : j' < rest.length := by simpa using hj
      have := hle_all j' (by omega)
      rw [h2, hds, getD_map_eDist query rest j' hj'] at this
      exact this
  · -- a later vector took over the minimum
    have hik : 1 + k = k + 1 := Nat.add_comm 1 k
    have hkr : k < rest.length := by omega
    have hval : (selectMin ds 1 0 (eDist query v0)).2 = eDist query (rest.getD k []) := by
      rw [h2, hds, getD_map_eDist query rest k hkr]
    refine ⟨k + 1, by rw [hfnn, h1, hik], by simp; omega, ?_, ?_⟩
    · intro j hj
      simp only [List.getD_cons_succ]
      rw [← hval]
      cases j with
      | zero => simpa [List.getD_cons_zero] using le_of_lt h4
      | succ j' =>
        have hj' : j' < rest.length := by simpa using hj
        have := hle_all j' (by omega)
        rw [hds, getD_map_eDist query rest j' hj'] at this
        simpa [List.getD_cons_succ] using this
    · intro j hj
      simp only [List.getD_cons_succ]
      rw [← hval]
      cases j with
      | zero => simpa [List.getD_cons_zero] using h4
      | succ j' =>
        have hj' : j' < k := by omega
        have := h3 j' hj'
        rw [hds, getD_map_eDist query rest j' (by omega)] at this
        simp only [List.getD_cons_succ]
        exact this

/-- Witness for C1 at a dimension-1 keyspace holding `[0]` and `[1]` and
the query `[0]`. -/
theorem findNearestNeighbor_min_witness :
    (Keyspace.mk [[(0 : ℝ)], [(1 : ℝ)]] 1 "w").vectors ≠ [] ∧
    (∀ v ∈ (Keyspace.mk [[(0 : ℝ)], [(1 : ℝ)]] 1 "w").vectors,
      v.length = (Keyspace.mk [[(0 : ℝ)], [(1 : ℝ)]] 1 "w").dimension) ∧
    ([(0 : ℝ)] : Vec).length = (Keyspace.mk [[(0 : ℝ)], [(1 : ℝ)]] 1 "w").dimension ∧
    ∃ i, findNearestNeighbor (Keyspace.mk [[(0 : ℝ)], [(1 : ℝ)]] 1 "w") [(0 : ℝ)] = .ok i ∧
      i < (Keyspace.mk [[(0 : ℝ)], [(1 : ℝ)]] 1 "w").vectors.length ∧
      (∀ j < (Keyspace.mk [[(0 : ℝ)], [(1 : ℝ)]] 1 "w").vectors.length,
        eDist [(0 : ℝ)] ((Keyspace.mk [[(0 : ℝ)], [(1 : ℝ)]] 1 "w").vectors.getD i []) ≤
          eDist [(0 : ℝ)] ((Keyspace.mk [[(0 : ℝ)], [(1 : ℝ)]] 1 "w").vectors.getD j [])) ∧
      ∀ j < i,
        eDist [(0 : ℝ)] ((Keyspace.mk [[(0 : ℝ)], [(1 : ℝ)]] 1 "w").vectors.getD i []) <
          eDist [(0 : ℝ)] ((Keyspace.mk [[(0 : ℝ)], [(1 : ℝ)]] 1 "w").vectors.getD j []) := by
  have hne : (Keyspace.mk [[(0 : ℝ)], [(1 : ℝ)]] 1 "w").vectors ≠ [] := by simp
  have hinv : ∀ v ∈ (Keyspace.mk [[(0 : ℝ)], [(1 : ℝ)]] 1 "w").vectors,
      v.length = (Keyspace.mk [[(0 : ℝ)], [(1 : ℝ)]] 1 "w").dimension := by
    intro v hv
    simp only [List.mem_cons, List.not_mem_nil, or_false] at hv
    rcases hv with rfl | rfl <;> rfl
  have hq : ([(0 : ℝ)] : Vec).length = (Keyspace.mk [[(0 : ℝ)], [(1 : ℝ)]] 1 "w").dimension :=
    rfl
  exact ⟨hne, hinv, hq,
    findNearestNeighbor_min (Keyspace.mk [[(0 : ℝ)], [(1 : ℝ)]] 1 "w") [(0 : ℝ)] hne hinv hq⟩

/-! ### The threshold search (claims C2 and C4) -/

lemma fnatLoop_eq (query : Vec) (threshold : ℝ) : ∀ (vs : List Vec) (i0 : Nat),
    (∀ v ∈ vs, query.length = v.length) →
    fnatLoop query threshold vs i0 = .ok ((List.enumFrom i0 vs).filterMap
      (fun p => if threshold ≤ 1 / (1 + eDist query p.2) then
        some (p.1, 1 / (1 + eDist query p.2)) else none)) := by
  intro vs
  induction vs with
  | nil => intro i0 _; rfl
  | cons v rest ih =>
    intro i0 hall
    have hv : query.length = v.length := hall v (List.mem_cons_self v rest)
    have hrest : ∀ w ∈ rest, query.length = w.length :=
      fun w hw => hall w (List.mem_cons_of_mem v hw)
    simp only [fnatLoop, euclideanDistance_ok hv, ih (i0 + 1) hrest,
      List.enumFrom_cons, List.filterMap_cons]
    rcases le_or_lt threshold (1 / (1 + eDist query v)) with hsim | hsim
    · rw [if_pos hsim, if_pos hsim]
    · rw [if_neg (not_le.2 hsim), if_neg (not_le.2 hsim)]

lemma findNeighborsAboveThreshold_eq (ks : Keyspace) (query : Vec) (threshold : ℝ)
    (hne : ks.vectors ≠ [])
    (hall : ∀ v ∈ ks.vectors, query.length = v.length) :
    findNeighborsAboveThreshold ks query threshold =
      .ok (List.insertionSort simDesc ((List.enumFrom 0 ks.vectors).filterMap
        (fun p => if threshold ≤ 1 / (1 + eDist query p.2) then
          some (p.1, 1 / (1 + eDist query p.2)) else none))) := by
  obtain ⟨v0, rest, hvs⟩ : ∃ v0 rest, ks.vectors = v0 :: rest := by
    cases h : ks.vectors with
    | nil => exact absurd h hne
    | cons a l => exact ⟨a, l, rfl⟩
  have hloop := fnatLoop_eq query threshold ks.vectors 0 hall
  rw [hvs] at hloop
  simp only [findNeighborsAboveThreshold, hvs, hloop]

/-- Claim C2: on a non-empty keyspace satisfying its dimension invariant
and a query of matching dimension, `findNeighborsAboveThreshold` succeeds
and returns exactly the pairs `(i, 1 / (1 + distance))` whose similarity
meets the threshold, sorted by similarity in descending order, with every
returned similarity in `(0, 1]`. -/
theorem findNeighborsAboveThreshold_spec (ks : Keyspace) (query : Vec) (threshold : ℝ)
    (hne : ks.vectors ≠ [])
    (hinv : ∀ v ∈ ks.vectors, v.length = ks.dimension)
    (hq : query.length = ks.dimension) :
    ∃ res, findNeighborsAboveThreshold ks query threshold = .ok res ∧
      res.Perm ((List.enumFrom 0 ks.vectors).filterMap
        (fun p => if threshold ≤ 1 / (1 + eDist query p.2) then
          some (p.1, 1 / (1 + eDist query p.2)) else none)) ∧
      List.Sorted simDesc res ∧
      ∀ p ∈ res, threshold ≤ p.2 ∧ 0 < p.2 ∧ p.2 ≤ 1 := by
  have hall : ∀ v ∈ ks.vectors, query.length = v.length :=
    fun v hv => by rw [hq, (hinv v hv).symm]
  refine ⟨_, findNeighborsAboveThreshold_eq ks query threshold hne hall,
    List.perm_insertionSort _ _, List.sorted_insertionSort _ _, ?_⟩
  intro p hp
  have hpL : p ∈ (List.enumFrom 0 ks.vectors).filterMap
      (fun p => if threshold ≤ 1 / (1 + eDist query p.2) then
        some (p.1, 1 / (1 + eDist query p.2)) else none) :=
    (List.perm_insertionSort _ _).mem_iff.1 hp
  obtain ⟨a, _, hfa⟩ := List.mem_filterMap.1 hpL
  by_cases hsim : threshold ≤ 1 / (1 + eDist query a.2)
  · rw [if_pos hsim] at hfa
    have hpa : p = (a.1, 1 / (1 + eDist query a.2)) := (Option.some.inj hfa).symm
    have hd : 0 ≤ eDist query a.2 := eDist_nonneg query a.2
    rw [hpa]
    refine ⟨hsim, one_div_pos.2 (by linarith), ?_⟩
    rw [div_le_one (by linarith)]
    linarith
  · rw [if_neg hsim] at hfa
    exact absurd hfa (by simp)

/-- Witness for C2 at a dimension-1 keyspace holding `[0]` and the query
`[0]` with threshold `0`. -/
theorem findNeighborsAboveThreshold_spec_witness :
    (Keyspace.mk [[(0 : ℝ)]] 1 "w").vectors ≠ [] ∧
    (∀ v ∈ (Keyspace.mk [[(0 : ℝ)]] 1 "w").vectors,
      v.length = (Keyspace.mk [[(0 : ℝ)]] 1 "w").dimension) ∧
    ([(0 : ℝ)] : Vec).length = (Keyspace.mk [[(0 : ℝ)]] 1 "w").dimension ∧
    ∃ res, findNeighborsAboveThreshold (Keyspace.mk [[(0 : ℝ)]] 1 "w") [(0 : ℝ)] 0 =
        .ok res ∧
      res.Perm ((List.enumFrom 0 (Keyspace.mk [[(0 : ℝ)]] 1 "w").vectors).filterMap
        (fun p => if (0 : ℝ) ≤ 1 / (1 + eDist [(0 : ℝ)] p.2) then
          some (p.1, 1 / (1 + eDist [(0 : ℝ)] p.2)) else none)) ∧
      List.Sorted simDesc res ∧
      ∀ p ∈ res, (0 : ℝ) ≤ p.2 ∧ 0 < p.2 ∧ p.2 ≤ 1 := by
  have hne : (Keyspace.mk [[(0 : ℝ)]] 1 "w").vectors ≠ [] := by simp
  have hinv : ∀ v ∈ (Keyspace.mk [[(0 : ℝ)]] 1 "w").vectors,
      v.length = (Keyspace.mk [[(0 : ℝ)]] 1 "w").dimension := by
    intro v hv
    simp only [List.mem_cons, List.not_mem_nil, or_false] at hv
    rcases hv with rfl; rfl
  exact ⟨hne, hinv, rfl,
    findNeighborsAboveThreshold_spec (Keyspace.mk [[(0 : ℝ)]] 1 "w") [(0 : ℝ)] 0 hne hinv rfl⟩

lemma fnnLoop_ne_emptyErr (query : Vec) : ∀ (vs : List Vec) (i best : Nat) (minD : ℝ),
    fnnLoop query vs i best minD ≠ .error .EmptyCollection := by
  intro vs
  induction vs with
  | nil => intro i best minD h; simp [fnnLoop] at h
  | cons v rest ih =>
    intro i best minD
    unfold fnnLoop
    split
    · rename_i e he
      have : e = .DimensionMismatch := euclideanDistance_error he
      subst this
      simp
    · split
      · exact ih _ _ _
      · exact ih _ _ _

lemma fnatLoop_ne_emptyErr (query : Vec) (threshold : ℝ) : ∀ (vs : List Vec) (i : Nat),
    fnatLoop query threshold vs i ≠ .error .EmptyCollection := by
  intro vs
  induction vs with
  | nil => intro i h; simp [fnatLoop] at h
  | cons v rest ih =>
    intro i
    unfold fnatLoop
    split
    · rename_i e he
      have : e = .DimensionMismatch := euclideanDistance_error he
      subst this
      simp
    · split
      · rename_i e he
        intro hcon
        have : e = .EmptyCollection := Except.error.inj hcon
        subst this
        exact ih (i + 1) he
      · split <;> simp

/-- Claim C4: both search operations fail with `EmptyCollection` exactly
when the keyspace holds no vectors; on a non-empty keyspace a threshold
no similarity reaches yields the valid empty result list, not an
error. -/
theorem emptyCollection_iff (ks : Keyspace) (query : Vec) (threshold : ℝ) :
    (findNearestNeighbor ks query = .error .EmptyCollection ↔ ks.vectors = []) ∧
    (findNeighborsAboveThreshold ks query threshold = .error .EmptyCollection ↔
      ks.vectors = []) ∧
    (ks.vectors ≠ [] → (∀ v ∈ ks.vectors, v.length = ks.dimension) →
      query.length = ks.dimension →
      (∀ v ∈ ks.vectors, 1 / (1 + eDist query v) < threshold) →
      findNeighborsAboveThreshold ks query threshold = .ok []) := by
  refine ⟨⟨?_, ?_⟩, ⟨?_, ?_⟩, ?_⟩
  · intro h
    cases hvs : ks.vectors with
    | nil => rfl
    | cons v0 rest =>
      exfalso
      unfold findNearestNeighbor at h
      rw [hvs] at h
      simp only [] at h
      split at h
      · rename_i e he
        have : e = .DimensionMismatch := euclideanDistance_error he
        subst this
        simp at h
      · exact fnnLoop_ne_emptyErr query rest 1 0 _ h
  · intro h
    unfold findNearestNeighbor
    rw [h]
  · intro h
    cases hvs : ks.vectors with
    | nil => rfl
    | cons v0 rest =>
      exfalso
      unfold findNeighborsAboveThreshold at h
      rw [hvs] at h
      simp only [] at h
      split at h
      · rename_i e he
        have : e = .EmptyCollection := Except.error.inj h
        subst this
        exact fnatLoop_ne_emptyErr query threshold _ 0 he
      · simp at h
  · intro h
    unfold findNeighborsAboveThreshold
    rw [h]
  · intro hne hinv hq hbelow
    have hall : ∀ v ∈ ks.vectors, query.length = v.length :=
      fun v hv => by rw [hq, (hinv v hv).symm]
    rw [findNeighborsAboveThreshold_eq ks query threshold hne hall]
    have hnil : (List.enumFrom 0 ks.vectors).filterMap
        (fun p => if threshold ≤ 1 / (1 + eDist query p.2) then
          some (p.1, 1 / (1 + eDist query p.2)) else none) = [] := by
      rw [List.filterMap_eq_nil_iff]
      intro a ha
      obtain ⟨i, x⟩ := a
      obtain ⟨_, _, hx⟩ := List.mem_enumFrom ha
      have hxmem : x ∈ ks.vectors := by
        rw [hx]
        exact List.getElem_mem _
      exact if_neg (not_le.2 (hbelow x hxmem))
    rw [hnil]
    rfl

/-- Witness for C4 at a non-empty dimension-1 keyspace and a threshold
above every similarity. -/
theorem emptyCollection_iff_witness :
    (Keyspace.mk [[(0 : ℝ)]] 1 "e").vectors ≠ [] ∧
    (∀ v ∈ (Keyspace.mk [[(0 : ℝ)]] 1 "e").vectors,
      v.length = (Keyspace.mk [[(0 : ℝ)]] 1 "e").dimension) ∧
    ([(0 : ℝ)] : Vec).length = (Keyspace.mk [[(0 : ℝ)]] 1 "e").dimension ∧
    (∀ v ∈ (Keyspace.mk [[(0 : ℝ)]] 1 "e").vectors,
      1 / (1 + eDist [(0 : ℝ)] v) < (2 : ℝ)) ∧
    findNeighborsAboveThreshold (Keyspace.mk [[(0 : ℝ)]] 1 "e") [(0 : ℝ)] 2 = .ok [] := by
  have hne : (Keyspace.mk [[(0 : ℝ)]] 1 "e").vectors ≠ [] := by simp
  have hinv : ∀ v ∈ (Keyspace.mk [[(0 : ℝ)]] 1 "e").vectors,
      v.length = (Keyspace.mk [[(0 : ℝ)]] 1 "e").dimension := by
    intro v hv
    simp only [List.mem_cons, List.not_mem_nil, or_false] at hv
    rcases hv with rfl; rfl
  have hbelow : ∀ v ∈ (Keyspace.mk [[(0 : ℝ)]] 1 "e").vectors,
      1 / (1 + eDist [(0 : ℝ)] v) < (2 : ℝ) := by
    intro v hv
    simp only [List.mem_cons, List.not_mem_nil, or_false] at hv
    rcases hv with rfl
    have hd : 0 ≤ eDist [(0 : ℝ)] [(0 : ℝ)] := eDist_nonneg _ _
    have h1 : 1 / (1 + eDist [(0 : ℝ)] [(0 : ℝ)]) ≤ 1 := by
      rw [div_le_one (by linarith)]
      linarith
    linarith
  exact ⟨hne, hinv, rfl, hbelow,
    (emptyCollection_iff (Keyspace.mk [[(0 : ℝ)]] 1 "e") [(0 : ℝ)] 2).2.2 hne hinv rfl hbelow⟩

end VS
